import Mathlib

/-!
Verification of the intertemporal-divergence solver (`source/utilities.py`).

The development shallowly embeds the parts of the program the claims are
about:

* the bisection search `find_ξ` (embedded over `ℚ`, with the per-trial
  relative entropy supplied by an oracle function standing for `iterate`);
* the quantile-cutoff state-indicator construction of the constructor
  (embedded over `ℚ`, mirroring numpy's linear-interpolation quantile);
* the per-state dual objective and gradient, the per-state solver, the
  outer fixed-point sweep and the post-convergence transition matrices
  (embedded over `ℝ`, with `scipy.optimize.minimize` as an oracle).
-/

namespace Beliefs

/-! ## Part 1: the bisection search `find_ξ`

`iterate` is abstracted as an oracle `RE : ℚ → ℚ` mapping a trial ξ to the
unconditional relative entropy of the converged run at that ξ.  The
embedding records, besides the returned ξ, whether the max-iteration
warning was printed and the list of ξ values at which `iterate` was run
during the bisection loop (the trials). -/

/-- Result of `find_ξ`: the returned ξ, whether the maximal-iterations
warning was emitted, and the ξ values trialed by the bisection loop. -/
structure FindXiOutput where
  ξ : ℚ
  warned : Bool
  trials : List ℚ
deriving DecidableEq

/-- The fixed penalty value at which `find_ξ` obtains the reference
entropy `min_RE` (`self.iterate(100., lower)` in the source). -/
def refXi : ℚ := 100

/-- Default value of the `upper_bound` parameter of `find_ξ`. -/
def defaultUpperBound : ℚ := 100

/-- The `for i in range(max_iter)` loop of `find_ξ`.  One call per
remaining iteration; arguments after the fuel are the current ξ, the
current lower and upper bounds and the Python `count` variable.  Mirrors
the source: evaluate `RE` at ξ, form `error = RE/min_RE - x_min_RE`,
return ξ when `|error| < tol`; otherwise bisect (`error < 0`: upper bound
becomes ξ and ξ becomes the midpoint of lower bound and ξ; else the lower
bound becomes ξ and ξ becomes the midpoint of ξ and upper bound),
increment `count`, and when `count` reaches `max_iter` print the warning
and fall out of the loop with the updated ξ. -/
def findXiGo (RE : ℚ → ℚ) (minRE x_min_RE tol : ℚ) (maxIter : ℕ) :
    ℕ → ℚ → ℚ → ℚ → ℕ → FindXiOutput
  | 0, ξ, _, _, _ => ⟨ξ, false, []⟩
  | fuel+1, ξ, lowerBound, upperBound, count =>
    let error := RE ξ / minRE - x_min_RE
    if |error| < tol then ⟨ξ, false, [ξ]⟩
    else
      let next :=
        if error < 0 then ((lowerBound + ξ)/2, lowerBound, ξ)
        else ((ξ + upperBound)/2, ξ, upperBound)
      if count + 1 = maxIter then ⟨next.1, true, [ξ]⟩
      else
        let r := findXiGo RE minRE x_min_RE tol maxIter fuel next.1 next.2.1 next.2.2 (count + 1)
        ⟨r.ξ, r.warned, ξ :: r.trials⟩

/-- `find_ξ`: obtain the reference entropy by running the iterate oracle at
the fixed penalty `refXi = 100`, then bisect starting from ξ = 1 with
lower bound 0 and upper bound `upper_bound`. -/
def find_ξ (RE : ℚ → ℚ) (x_min_RE tol : ℚ) (maxIter : ℕ) (upper_bound : ℚ) :
    FindXiOutput :=
  let minRE := RE refXi
  findXiGo RE minRE x_min_RE tol maxIter maxIter 1 0 upper_bound 0

/-- C2: every call of `find_ξ` starts the bisection at ξ = 1 on the interval
(0, upper_bound]; at each trial it computes `error = RE/min_RE − x_min_RE`
(with `min_RE` the entropy of the reference run), stops and returns the
current ξ when `|error| < tol`, and otherwise, when `error < 0` it sets the
upper bound to the current ξ and replaces ξ by the midpoint of
(lower_bound, ξ), and when `error ≥ 0` it sets the lower bound to ξ and
replaces ξ by the midpoint of (ξ, upper_bound). -/
theorem find_xi_bisection_steps (RE : ℚ → ℚ) (minRE x tol : ℚ) (mi : ℕ) (ub : ℚ) :
    (find_ξ RE x tol mi ub = findXiGo RE (RE refXi) x tol mi mi 1 0 ub 0) ∧
    (∀ fuel ξ l u c, |RE ξ / minRE - x| < tol →
      findXiGo RE minRE x tol mi (fuel+1) ξ l u c = ⟨ξ, false, [ξ]⟩) ∧
    (∀ fuel ξ l u c, ¬ |RE ξ / minRE - x| < tol → RE ξ / minRE - x < 0 → c + 1 ≠ mi →
      findXiGo RE minRE x tol mi (fuel+1) ξ l u c =
        (let r := findXiGo RE minRE x tol mi fuel ((l + ξ)/2) l ξ (c+1)
         ⟨r.ξ, r.warned, ξ :: r.trials⟩)) ∧
    (∀ fuel ξ l u c, ¬ |RE ξ / minRE - x| < tol → 0 ≤ RE ξ / minRE - x → c + 1 ≠ mi →
      findXiGo RE minRE x tol mi (fuel+1) ξ l u c =
        (let r := findXiGo RE minRE x tol mi fuel ((ξ + u)/2) ξ u (c+1)
         ⟨r.ξ, r.warned, ξ :: r.trials⟩)) := by
  refine ⟨rfl, ?_, ?_, ?_⟩
  · intro fuel ξ l u c h
    simp [findXiGo, h]
  · intro fuel ξ l u c h hneg hcnt
    simp [findXiGo, h, hneg, hcnt]
  · intro fuel ξ l u c h hpos hcnt
    simp [findXiGo, h, not_lt.mpr hpos, hcnt]

/-- Witness for C2 at concrete inputs: with the oracle constantly 1 and
`min_RE = 1`, a trial within tolerance returns that ξ, a trial with
negative error bisects into the lower half, and a trial with nonnegative
error bisects into the upper half. -/
theorem find_xi_bisection_steps_witness :
    (findXiGo (fun _ => (1:ℚ)) 1 1 (1/2) 5 4 1 0 100 0 = ⟨1, false, [1]⟩) ∧
    (findXiGo (fun _ => (1:ℚ)) 1 3 (1/2) 5 4 1 0 100 0 =
      (let r := findXiGo (fun _ => (1:ℚ)) 1 3 (1/2) 5 3 ((0 + 1)/2) 0 1 1
       ⟨r.ξ, r.warned, 1 :: r.trials⟩)) ∧
    (findXiGo (fun _ => (1:ℚ)) 1 (-1) (1/2) 5 4 1 0 100 0 =
      (let r := findXiGo (fun _ => (1:ℚ)) 1 (-1) (1/2) 5 3 ((1 + 100)/2) 1 100 1
       ⟨r.ξ, r.warned, 1 :: r.trials⟩)) :=
  ⟨(find_xi_bisection_steps (fun _ => (1:ℚ)) 1 1 (1/2) 5 100).2.1 3 1 0 100 0 (by norm_num),
   (find_xi_bisection_steps (fun _ => (1:ℚ)) 1 3 (1/2) 5 100).2.2.1 3 1 0 100 0
     (by norm_num) (by norm_num) (by norm_num),
   (find_xi_bisection_steps (fun _ => (1:ℚ)) 1 (-1) (1/2) 5 100).2.2.2 3 1 0 100 0
     (by norm_num) (by norm_num) (by norm_num)⟩

/-- C5 counterexample: with the iterate oracle constantly 1 (so
`min_RE = 1`), target ratio 3, tolerance 1/2 and `max_iter = 2`, the cap
is reached (warning emitted), the trials were ξ = 1 and ξ = 1/2, and the
returned value 1/4 is not the last trial value (it is not a trial value at
all): the function returns the freshly bisected midpoint, which was never
evaluated. -/
theorem find_xi_returns_untrialed_midpoint :
    (find_ξ (fun _ => 1) 3 (1/2) 2 100 = ⟨1/4, true, [1, 1/2]⟩) ∧
    (1/4 : ℚ) ∉ [(1 : ℚ), 1/2] := by
  constructor
  · norm_num [find_ξ, findXiGo, refXi]
  · simp [List.mem_cons]

/-- C5 (amended): when the final allowed iteration's trial misses the
tolerance, `find_ξ` emits the warning and returns the bisection midpoint
computed from that last trial — a point at which `iterate` was never run —
rather than the last trial value itself. -/
theorem find_xi_cap_behavior (RE : ℚ → ℚ) (minRE x tol : ℚ) (mi : ℕ) (ξ l u : ℚ) (c : ℕ)
    (hc : c + 1 = mi) (h : ¬ |RE ξ / minRE - x| < tol) :
    findXiGo RE minRE x tol mi 1 ξ l u c =
      ⟨if RE ξ / minRE - x < 0 then (l + ξ)/2 else (ξ + u)/2, true, [ξ]⟩ := by
  simp only [findXiGo, hc, if_neg h]
  by_cases hs : RE ξ / minRE - x < 0
  · simp [hs]
  · simp [hs]

/-- Witness for the amended C5 at a concrete input: one allowed iteration,
error −2 misses tolerance 1/2, warning emitted, returned value is the
midpoint (0+1)/2 = 1/2 of the shrunken interval, not the trial value 1. -/
theorem find_xi_cap_behavior_witness :
    findXiGo (fun _ => (1:ℚ)) 1 3 (1/2) 1 1 1 0 100 0 = ⟨1/2, true, [1]⟩ := by
  have h := find_xi_cap_behavior (fun _ => (1:ℚ)) 1 3 (1/2) 1 1 0 100 0
    (by norm_num) (by norm_num)
  rw [h, if_pos (by norm_num)]
  norm_num

/-- C10: the reference entropy `min_RE` is obtained by running the iterate
oracle at the fixed penalty `refXi = 100` regardless of the caller-supplied
`upper_bound`; with the default `upper_bound = 100` the initial upper
endpoint of the bisection interval coincides with the reference point, and
for any `upper_bound > 100` the reference point lies strictly inside the
initial search interval (0, upper_bound). -/
theorem find_xi_reference_point :
    (∀ (RE : ℚ → ℚ) (x tol : ℚ) (mi : ℕ) (ub : ℚ),
      find_ξ RE x tol mi ub = findXiGo RE (RE refXi) x tol mi mi 1 0 ub 0) ∧
    refXi = 100 ∧ refXi = defaultUpperBound ∧
    (∀ ub : ℚ, 100 < ub → 0 < refXi ∧ refXi < ub) := by
  refine ⟨fun _ _ _ _ _ => rfl, rfl, rfl, fun ub hub => ⟨by norm_num [refXi], ?_⟩⟩
  rw [refXi]
  exact hub

/-- Witness for C10 at a concrete input: with `upper_bound = 200 > 100` the
reference point 100 lies strictly inside (0, 200). -/
theorem find_xi_reference_point_witness : 0 < refXi ∧ refXi < 200 :=
  find_xi_reference_point.2.2.2 200 (by norm_num)

/-! ## Part 2: quantile cutoffs and state indicators

The constructor computes `tercile = np.quantile(pd_lag, arange(n+1)/n)`
and sets `indicator[:,i] = (pd_lag >= tercile[i]) & (pd_lag <= tercile[i+1])`.
`np.quantile` with the default method sorts the data and linearly
interpolates at position `q * (len - 1)`.  Embedded over `ℚ`. -/

/-- The sorted copy of the data used by `np.quantile`. -/
def sortData (xs : List ℚ) : List ℚ := List.insertionSort (· ≤ ·) xs

/-- Linear interpolation of a sorted sequence at fractional position `h`:
take `i = ⌊h⌋` and return `s[i] + (h - i) * (s[i+1] - s[i])`, reading the
out-of-range `s[i+1]` (which only occurs with interpolation weight 0) as
`s[i]`. -/
def interp (s : List ℚ) (h : ℚ) : ℚ :=
  let i := (⌊h⌋).toNat
  let lo := s.getD i 0
  let hi := s.getD (i+1) lo
  lo + (h - i) * (hi - lo)

/-- `np.quantile(xs, q)` with the default linear-interpolation method. -/
def quantile (xs : List ℚ) (q : ℚ) : ℚ :=
  interp (sortData xs) (q * ((xs.length : ℚ) - 1))

/-- The state cutoffs: `tercile[k] = quantile(xs, k/n)` for `k = 0..n`. -/
def cutoffs (xs : List ℚ) (n : ℕ) (k : ℕ) : ℚ :=
  quantile xs ((k : ℚ) / (n : ℚ))

/-- The current-state indicator of an observation with lagged value `v`:
`indicator[:,i] = (v >= tercile[i]) & (v <= tercile[i+1])`. -/
def stateIndicator (xs : List ℚ) (n : ℕ) (v : ℚ) (i : ℕ) : Bool :=
  decide (cutoffs xs n i ≤ v) && decide (v ≤ cutoffs xs n (i+1))

/-- C4 counterexample: for the data [0, 1, 2] with 2 states, the cutoffs
are [0, 1, 2]; the observation with lagged value 1 (an actual data point)
satisfies the indicator of state 0 (interval [0,1]) and of state 1
(interval [1,2]): the closed-interval indicators are not mutually
exclusive, so its row does not have exactly one true entry. -/
theorem state_indicator_not_exclusive :
    ((1:ℚ) ∈ [(0:ℚ), 1, 2]) ∧
    stateIndicator [0, 1, 2] 2 1 0 = true ∧
    stateIndicator [0, 1, 2] 2 1 1 = true ∧
    ¬ (∃! i, i < 2 ∧ stateIndicator [(0:ℚ), 1, 2] 2 1 i = true) := by
  have h0 : stateIndicator [(0:ℚ), 1, 2] 2 1 0 = true := by
    norm_num [stateIndicator, cutoffs, quantile, interp, sortData, List.insertionSort,
      List.orderedInsert, (show Int.toNat 1 = 1 from rfl)]
  have h1 : stateIndicator [(0:ℚ), 1, 2] 2 1 1 = true := by
    norm_num [stateIndicator, cutoffs, quantile, interp, sortData, List.insertionSort,
      List.orderedInsert, (show Int.toNat 1 = 1 from rfl), (show Int.toNat 2 = 2 from rfl)]
  refine ⟨by simp, h0, h1, ?_⟩
  rintro ⟨i, ⟨hilt, hind⟩, huniq⟩
  have e0 : 0 = i := huniq 0 ⟨by norm_num, h0⟩
  have e1 : 1 = i := huniq 1 ⟨by norm_num, h1⟩
  rw [← e0] at e1
  exact absurd e1 (by norm_num)

lemma sortData_sorted (xs : List ℚ) : (sortData xs).Sorted (· ≤ ·) :=
  List.sorted_insertionSort _ xs

lemma sortData_length (xs : List ℚ) : (sortData xs).length = xs.length :=
  (List.perm_insertionSort _ xs).length_eq

lemma sorted_getD_mono (s : List ℚ) (hs : s.Sorted (· ≤ ·)) {i j : ℕ} (hij : i ≤ j)
    (hj : j < s.length) (d : ℚ) : s.getD i d ≤ s.getD j d := by
  have hi : i < s.length := lt_of_le_of_lt hij hj
  rw [List.getD_eq_getElem s d hi, List.getD_eq_getElem s d hj]
  rcases eq_or_lt_of_le hij with rfl | hlt
  · exact le_refl _
  · have := List.pairwise_iff_get.mp hs ⟨i, hi⟩ ⟨j, hj⟩ hlt
    simpa [List.get_eq_getElem] using this

lemma toNat_floor_cast {h : ℚ} (h0 : 0 ≤ h) : (((⌊h⌋).toNat : ℕ) : ℚ) = (⌊h⌋ : ℚ) := by
  rw [← Int.cast_natCast, Int.toNat_of_nonneg (Int.floor_nonneg.mpr h0)]

lemma toNat_floor_le {h : ℚ} (h0 : 0 ≤ h) : (((⌊h⌋).toNat : ℕ) : ℚ) ≤ h := by
  rw [toNat_floor_cast h0]; exact Int.floor_le h

lemma lt_toNat_floor_add_one {h : ℚ} (h0 : 0 ≤ h) : h < (((⌊h⌋).toNat : ℕ) : ℚ) + 1 := by
  rw [toNat_floor_cast h0]; exact Int.lt_floor_add_one h

/-- Monotonicity of the linear interpolation of a sorted list in the
fractional position. -/
lemma interp_mono (s : List ℚ) (hs : s.Sorted (· ≤ ·)) {h1 h2 : ℚ}
    (h10 : 0 ≤ h1) (h12 : h1 ≤ h2) (hlen : h2 ≤ (s.length : ℚ) - 1) :
    interp s h1 ≤ interp s h2 := by
  have h20 : 0 ≤ h2 := le_trans h10 h12
  set i1 := (⌊h1⌋).toNat with hi1def
  set i2 := (⌊h2⌋).toNat with hi2def
  have hf1 : (i1 : ℚ) ≤ h1 := toNat_floor_le h10
  have hf1' : h1 < (i1 : ℚ) + 1 := lt_toNat_floor_add_one h10
  have hf2 : (i2 : ℚ) ≤ h2 := toNat_floor_le h20
  have hi12 : i1 ≤ i2 := Int.toNat_le_toNat (Int.floor_le_floor h12)
  have hi2len : i2 < s.length := by
    have : (i2 : ℚ) < (s.length : ℚ) := by linarith
    exact_mod_cast this
  have hi1len : i1 < s.length := lt_of_le_of_lt hi12 hi2len
  rcases eq_or_lt_of_le hi12 with heq | hlt
  · -- same segment
    rw [interp, interp, ← hi1def, ← hi2def, ← heq]
    by_cases hnext : i1 + 1 < s.length
    · have hseg : s.getD i1 0 ≤ s.getD (i1+1) (s.getD i1 0) := by
        have h := sorted_getD_mono s hs (Nat.le_succ i1) hnext (s.getD i1 0)
        rwa [List.getD_eq_getElem s _ hi1len, ← List.getD_eq_getElem s 0 hi1len] at h
      nlinarith [hseg, h12]
    · rw [List.getD_eq_default s _ (le_of_not_lt hnext)]
      simp
  · -- h1 and h2 in different segments
    have hnext1 : i1 + 1 ≤ i2 := hlt
    have hnext1len : i1 + 1 < s.length := lt_of_le_of_lt hnext1 hi2len
    have key1 : interp s h1 ≤ s.getD (i1+1) 0 := by
      rw [interp, ← hi1def]
      have hD : s.getD (i1+1) (s.getD i1 0) = s.getD (i1+1) 0 := by
        rw [List.getD_eq_getElem s _ hnext1len, List.getD_eq_getElem s _ hnext1len]
      rw [hD]
      have hlo : s.getD i1 0 ≤ s.getD (i1+1) 0 :=
        sorted_getD_mono s hs (Nat.le_succ i1) hnext1len 0
      nlinarith [hlo, hf1, hf1']
    have key2 : s.getD (i1+1) 0 ≤ s.getD i2 0 :=
      sorted_getD_mono s hs hnext1 hi2len 0
    have key3 : s.getD i2 0 ≤ interp s h2 := by
      rw [interp, ← hi2def]
      by_cases hnext2 : i2 + 1 < s.length
      · have hD : s.getD (i2+1) (s.getD i2 0) = s.getD (i2+1) 0 := by
          rw [List.getD_eq_getElem s _ hnext2, List.getD_eq_getElem s _ hnext2]
        rw [hD]
        have hhi : s.getD i2 0 ≤ s.getD (i2+1) 0 :=
          sorted_getD_mono s hs (Nat.le_succ i2) hnext2 0
        nlinarith [hhi, hf2]
      · rw [List.getD_eq_default s _ (le_of_not_lt hnext2)]
        simp
    linarith

lemma cutoffs_zero (xs : List ℚ) (n : ℕ) : cutoffs xs n 0 = (sortData xs).getD 0 0 := by
  simp [cutoffs, quantile, interp]

lemma cutoffs_last (xs : List ℚ) (n : ℕ) (hn : 0 < n) (hxs : xs ≠ []) :
    cutoffs xs n n = (sortData xs).getD (xs.length - 1) 0 := by
  have hlen : 1 ≤ xs.length := List.length_pos.mpr hxs
  have hdiv : ((n : ℚ) / (n : ℚ)) = 1 :=
    div_self (by exact_mod_cast hn.ne' : (n : ℚ) ≠ 0)
  have hcast : (xs.length : ℚ) - 1 = ((xs.length - 1 : ℕ) : ℚ) := by
    rw [Nat.cast_sub hlen]; norm_num
  rw [cutoffs, quantile, hdiv, one_mul, hcast, interp]
  simp [Int.floor_natCast]

lemma head_le_mem (s : List ℚ) (hs : s.Sorted (· ≤ ·)) {v : ℚ} (hv : v ∈ s) :
    s.getD 0 0 ≤ v := by
  obtain ⟨i, rfl⟩ := List.mem_iff_get.mp hv
  have := sorted_getD_mono s hs (Nat.zero_le i.val) i.isLt 0
  rwa [List.getD_eq_getElem s 0 i.isLt, ← List.get_eq_getElem] at this

lemma mem_le_last (s : List ℚ) (hs : s.Sorted (· ≤ ·)) {v : ℚ} (hv : v ∈ s) :
    v ≤ s.getD (s.length - 1) 0 := by
  obtain ⟨i, rfl⟩ := List.mem_iff_get.mp hv
  have hlast : s.length - 1 < s.length := Nat.sub_lt (lt_of_le_of_lt (Nat.zero_le _) i.isLt) one_pos
  have := sorted_getD_mono s hs (Nat.le_sub_one_of_lt i.isLt) hlast 0
  rwa [List.getD_eq_getElem s 0 i.isLt, ← List.get_eq_getElem] at this

lemma cutoffs_mono (xs : List ℚ) (n : ℕ) (hn : 0 < n) (hxs : xs ≠ []) {k k' : ℕ}
    (hkk : k ≤ k') (hk' : k' ≤ n) : cutoffs xs n k ≤ cutoffs xs n k' := by
  have hlen : 1 ≤ xs.length := List.length_pos.mpr hxs
  have hlenq : (1 : ℚ) ≤ (xs.length : ℚ) := by exact_mod_cast hlen
  have hnq : (0 : ℚ) < (n : ℚ) := by exact_mod_cast hn
  have hlenq1 : (0 : ℚ) ≤ (xs.length : ℚ) - 1 := by linarith
  have hkq : ((k : ℚ) / (n : ℚ)) ≤ ((k' : ℚ) / (n : ℚ)) :=
    (div_le_div_iff_of_pos_right hnq).mpr (by exact_mod_cast hkk)
  have hk1 : ((k' : ℚ) / (n : ℚ)) ≤ 1 := by
    rw [div_le_one hnq]
    exact_mod_cast hk'
  have hk0 : (0 : ℚ) ≤ ((k : ℚ) / (n : ℚ)) := by positivity
  rw [cutoffs, cutoffs, quantile, quantile]
  apply interp_mono (sortData xs) (sortData_sorted xs)
  · exact mul_nonneg hk0 hlenq1
  · exact mul_le_mul_of_nonneg_right hkq hlenq1
  · rw [sortData_length]
    calc (k' : ℚ) / (n : ℚ) * ((xs.length : ℚ) - 1)
        ≤ 1 * ((xs.length : ℚ) - 1) := mul_le_mul_of_nonneg_right hk1 hlenq1
      _ = (xs.length : ℚ) - 1 := one_mul _

lemma exists_bracket (c : ℕ → ℚ) (v : ℚ) :
    ∀ m : ℕ, 0 < m → c 0 ≤ v → v ≤ c m → ∃ i, i < m ∧ c i ≤ v ∧ v ≤ c (i+1) := by
  intro m
  induction m with
  | zero => intro h; exact absurd h (lt_irrefl 0)
  | succ m ih =>
    intro _ h0 hm
    by_cases hcm : v ≤ c m
    · rcases Nat.eq_zero_or_pos m with rfl | hmpos
      · exact ⟨0, Nat.zero_lt_one, h0, hm⟩
      · obtain ⟨i, hi, hbr⟩ := ih hmpos h0 hcm
        exact ⟨i, Nat.lt_succ_of_lt hi, hbr⟩
    · exact ⟨m, Nat.lt_succ_self m, le_of_not_le hcm, hm⟩

/-- C4 (amended): every observation belongs to at least one current state
(the closed quantile intervals cover the data range), and to exactly one
unless its lagged value equals an interior quantile cutoff, in which case
its indicator row can have more than one true entry. -/
theorem state_indicator_exhaustive (xs : List ℚ) (n : ℕ) (v : ℚ)
    (hxs : xs ≠ []) (hn : 0 < n) (hv : v ∈ xs) :
    (∃ i, i < n ∧ stateIndicator xs n v i = true) ∧
    ((∀ k, 0 < k → k < n → v ≠ cutoffs xs n k) →
      ∃! i, i < n ∧ stateIndicator xs n v i = true) := by
  have hvs : v ∈ sortData xs := (List.perm_insertionSort _ xs).mem_iff.mpr hv
  have hsorted := sortData_sorted xs
  have h0v : cutoffs xs n 0 ≤ v := by
    rw [cutoffs_zero]
    exact head_le_mem _ hsorted hvs
  have hvn : v ≤ cutoffs xs n n := by
    rw [cutoffs_last xs n hn hxs]
    have h := mem_le_last _ hsorted hvs
    rwa [sortData_length] at h
  obtain ⟨i, hi, hbr1, hbr2⟩ := exists_bracket (cutoffs xs n) v n hn h0v hvn
  have hmem : stateIndicator xs n v i = true := by
    simp [stateIndicator, hbr1, hbr2]
  refine ⟨⟨i, hi, hmem⟩, fun hne => ⟨i, ⟨hi, hmem⟩, ?_⟩⟩
  rintro j ⟨hj, hjmem⟩
  rw [stateIndicator, Bool.and_eq_true, decide_eq_true_eq, decide_eq_true_eq] at hjmem
  obtain ⟨hj1, hj2⟩ := hjmem
  by_contra hne_ij
  rcases Nat.lt_or_ge j i with hlt | hge
  · have hstep : cutoffs xs n (j+1) ≤ cutoffs xs n i :=
      cutoffs_mono xs n hn hxs hlt (le_of_lt hi)
    have heq : v = cutoffs xs n i := le_antisymm (le_trans hj2 hstep) hbr1
    exact hne i (Nat.lt_of_le_of_lt (Nat.zero_le j) hlt) hi heq
  · have hij : i < j := lt_of_le_of_ne hge fun h => hne_ij h.symm
    have hstep : cutoffs xs n (i+1) ≤ cutoffs xs n j :=
      cutoffs_mono xs n hn hxs hij (le_of_lt hj)
    have heq : v = cutoffs xs n j := le_antisymm (le_trans hbr2 hstep) hj1
    exact hne j (Nat.lt_of_le_of_lt (Nat.zero_le i) hij) hj heq

/-- Witness for the amended C4 at a concrete input: for data [0, 1, 4, 9]
with 2 states the interior cutoff is 5/2, the observation 1 equals no
interior cutoff, and it belongs to exactly one state. -/
theorem state_indicator_exhaustive_witness :
    (∃ i, i < 2 ∧ stateIndicator [(0:ℚ), 1, 4, 9] 2 1 i = true) ∧
    (∃! i, i < 2 ∧ stateIndicator [(0:ℚ), 1, 4, 9] 2 1 i = true) := by
  have h := state_indicator_exhaustive [(0:ℚ), 1, 4, 9] 2 1 (by simp) (by norm_num) (by simp)
  refine ⟨h.1, h.2 ?_⟩
  intro k hk0 hk2
  interval_cases k
  norm_num [cutoffs, quantile, interp, sortData, List.insertionSort, List.orderedInsert,
    (show Int.toNat 1 = 1 from rfl)]

/-! ## Part 3: per-state objective, gradient, per-state solver, outer
fixed-point sweep and transition matrices

The observation panel is embedded as a list of rows; each row carries the
(sign-adjusted) moment value `g`, the stacked factor blocks `f` (block `s`
is the raw factor vector masked by the state-`s` indicator, as built in
the constructor), the current-state indicator row (`pd_lag_indicator`) and
the next-state indicator row (`pd_indicator`).  Real (float) arithmetic is
embedded over `ℝ`. -/

/-- An observation row of the panel after the constructor drops the last
raw observation. -/
structure Row (ns nf : ℕ) where
  g : ℝ
  f : Fin ns → Fin nf → ℝ
  cur : Fin ns → Bool
  next : Fin ns → Bool

/-- A boolean indicator as the float numpy uses in arithmetic. -/
def bval (b : Bool) : ℝ := if b then 1 else 0

/-- Dot product of two real vectors. -/
def dotR {m : ℕ} (x y : Fin m → ℝ) : ℝ := ∑ k, x k * y k

/-- Dot product of a boolean indicator row with a real vector
(`indicator @ e` in numpy). -/
def dotB {m : ℕ} (ind : Fin m → Bool) (e : Fin m → ℝ) : ℝ := ∑ k, bval (ind k) * e k

/-- `np.mean` of a list of reals. -/
noncomputable def mean (l : List ℝ) : ℝ := l.sum / l.length

/-- `np.max` of a (nonempty) list of reals. -/
def listMax : List ℝ → ℝ
  | [] => 0
  | a :: l => l.foldl max a

/-- The rows whose current state matches (`pd_lag_indicator[:,state-1]`
selection). -/
def selectState {ns nf : ℕ} (rows : List (Row ns nf)) (state : Fin ns) : List (Row ns nf) :=
  rows.filter fun r => r.cur state

/-- The per-row score of `_objective_numba`:
`-g/ξ + (factor block of the state) · λ + log(next-state indicator · e)`. -/
noncomputable def score {ns nf : ℕ} (ξ : ℝ) (e : Fin ns → ℝ) (lam : Fin nf → ℝ)
    (state : Fin ns) (r : Row ns nf) : ℝ :=
  -r.g / ξ + dotR (r.f state) lam + Real.log (dotB r.next e)

/-- `_objective_numba`: restrict to the rows of the state, form the scores,
subtract the maximum `a`, exponentiate, average, take the log and add `a`
back. -/
noncomputable def objective_numba {ns nf : ℕ} (rows : List (Row ns nf)) (state : Fin ns)
    (e : Fin ns → ℝ) (ξ : ℝ) (lam : Fin nf → ℝ) : ℝ :=
  let xs := (selectState rows state).map (score ξ e lam state)
  let a := listMax xs
  Real.log (mean (xs.map fun x => Real.exp (x - a))) + a

/-- The unstabilized log-mean-exp. -/
noncomputable def logMeanExp (xs : List ℝ) : ℝ := Real.log (mean (xs.map Real.exp))

/-- `_objective_gradient_numba`: weight each selected factor row by
`exp(score)` normalized by the mean of `exp(score)`, and average each
column. -/
noncomputable def objective_gradient_numba {ns nf : ℕ} (rows : List (Row ns nf))
    (state : Fin ns) (e : Fin ns → ℝ) (ξ : ℝ) (lam : Fin nf → ℝ) : Fin nf → ℝ :=
  let sel := selectState rows state
  let temp1 := sel.map (score ξ e lam state)
  let m := mean (temp1.map Real.exp)
  fun j => mean (sel.map fun r => r.f state j * (Real.exp (score ξ e lam state r) / m))

/-- The gradient as the spec phrases it: weight each factor row by
`exp(score − rowmax)` normalized by its mean, and average each column. -/
noncomputable def objective_gradient_spec {ns nf : ℕ} (rows : List (Row ns nf))
    (state : Fin ns) (e : Fin ns → ℝ) (ξ : ℝ) (lam : Fin nf → ℝ) : Fin nf → ℝ :=
  let sel := selectState rows state
  let a := listMax (sel.map (score ξ e lam state))
  let m := mean ((sel.map (score ξ e lam state)).map fun x => Real.exp (x - a))
  fun j => mean (sel.map fun r => r.f state j * (Real.exp (score ξ e lam state r - a) / m))

lemma exp_list_sum_pos (xs : List ℝ) (hxs : xs ≠ []) : 0 < (xs.map Real.exp).sum := by
  apply List.sum_pos
  · intro x hx
    obtain ⟨y, _, rfl⟩ := List.mem_map.mp hx
    exact Real.exp_pos y
  · simpa using hxs

lemma mean_exp_pos (xs : List ℝ) (hxs : xs ≠ []) : 0 < mean (xs.map Real.exp) := by
  rw [mean]
  apply div_pos (exp_list_sum_pos xs hxs)
  have : 0 < xs.length := List.length_pos.mpr hxs
  simp only [List.length_map]
  exact_mod_cast this

lemma shifted_mean_exp (xs : List ℝ) (a : ℝ) :
    mean (xs.map fun x => Real.exp (x - a)) = mean (xs.map Real.exp) * Real.exp (-a) := by
  rw [mean, mean]
  have hmap : (xs.map fun x => Real.exp (x - a)) = xs.map fun x => Real.exp x * Real.exp (-a) := by
    congr 1
    funext x
    rw [Real.exp_sub, Real.exp_neg, div_eq_mul_inv]
  rw [hmap, List.sum_map_mul_right, List.length_map, List.length_map, mul_div_right_comm]

/-- The max-subtraction stabilization is exact: for any shift `a`,
`log(mean(exp(x − a))) + a` is the plain log-mean-exp of the scores. -/
lemma stabilized_logMeanExp (xs : List ℝ) (a : ℝ) (hxs : xs ≠ []) :
    Real.log (mean (xs.map fun x => Real.exp (x - a))) + a = logMeanExp xs := by
  rw [shifted_mean_exp,
    Real.log_mul (ne_of_gt (mean_exp_pos xs hxs)) (Real.exp_ne_zero (-a)),
    Real.log_exp, logMeanExp]
  ring

/-- C1: the per-state objective restricts to the rows of the state, forms
the scores `(−g/ξ) + (masked factors · λ) + log(next-state indicator · e)`,
and its max-stabilized computation `log(mean(exp(score − a))) + a` equals
the unstabilized log-mean-exp of the scores. -/
theorem objective_numba_eq_logMeanExp {ns nf : ℕ} (rows : List (Row ns nf)) (state : Fin ns)
    (e : Fin ns → ℝ) (ξ : ℝ) (lam : Fin nf → ℝ) (hsel : selectState rows state ≠ []) :
    objective_numba rows state e ξ lam =
      logMeanExp ((selectState rows state).map (score ξ e lam state)) := by
  have hxs : ((selectState rows state).map (score ξ e lam state)) ≠ [] := by
    simpa using hsel
  exact stabilized_logMeanExp _ _ hxs

/-- A concrete one-row panel (one state, one factor, all data zero, both
indicators true) used by the witnesses. -/
noncomputable def wRow : Row 1 1 := ⟨0, fun _ _ => 0, fun _ => true, fun _ => true⟩

/-- Witness for C1 at a concrete input: the one-row panel with e = 1,
ξ = 1, λ = 0. -/
theorem objective_numba_eq_logMeanExp_witness :
    objective_numba [wRow] 0 (fun _ => 1) 1 (fun _ => 0) =
      logMeanExp ((selectState [wRow] 0).map (score 1 (fun _ => 1) (fun _ => 0) 0)) :=
  objective_numba_eq_logMeanExp [wRow] 0 (fun _ => 1) 1 (fun _ => 0)
    (by simp [selectState, wRow, List.filter])

lemma dotR_update {m : ℕ} (f lam : Fin m → ℝ) (j : Fin m) (t : ℝ) :
    dotR f (Function.update lam j t) = f j * (t - lam j) + dotR f lam := by
  rw [dotR, dotR]
  have h : (fun k => f k * Function.update lam j t k)
      = fun k => (if k = j then f j * (t - lam j) else 0) + f k * lam k := by
    funext k
    by_cases hk : k = j
    · subst hk
      rw [Function.update_same, if_pos rfl]
      ring
    · rw [Function.update_noteq hk, if_neg hk]
      ring
  rw [h, Finset.sum_add_distrib, Finset.sum_ite_eq' Finset.univ j]
  simp

lemma score_update {ns nf : ℕ} (ξ : ℝ) (e : Fin ns → ℝ) (lam : Fin nf → ℝ) (j : Fin nf)
    (t : ℝ) (state : Fin ns) (r : Row ns nf) :
    score ξ e (Function.update lam j t) state r
      = r.f state j * (t - lam j) + score ξ e lam state r := by
  rw [score, score, dotR_update]
  ring

lemma hasDerivAt_list_sum {α : Type} (l : List α) (f : α → ℝ → ℝ) (d : α → ℝ) (x : ℝ)
    (h : ∀ a ∈ l, HasDerivAt (f a) (d a) x) :
    HasDerivAt (fun t => (l.map fun a => f a t).sum) ((l.map d).sum) x := by
  induction l with
  | nil => simpa using hasDerivAt_const x (0:ℝ)
  | cons a l ih =>
    simp only [List.map_cons, List.sum_cons]
    exact (h a (List.mem_cons_self a l)).add (ih fun b hb => h b (List.mem_cons_of_mem a hb))

/-- C6: the gradient kernel weights each selected factor row by
`exp(score)` normalized by its mean and averages each column; this equals
the spec's stabilized form (weights `exp(score − rowmax)` normalized by
their mean), and it is the exact derivative of the per-state objective in
each coordinate of λ — the softmax-weighted average of the factor
vectors. -/
theorem objective_gradient_exact {ns nf : ℕ} (rows : List (Row ns nf)) (state : Fin ns)
    (e : Fin ns → ℝ) (ξ : ℝ) (lam : Fin nf → ℝ) (hsel : selectState rows state ≠ []) :
    (∀ j, objective_gradient_numba rows state e ξ lam j
        = objective_gradient_spec rows state e ξ lam j) ∧
    (∀ j, HasDerivAt (fun t => objective_numba rows state e ξ (Function.update lam j t))
        (objective_gradient_numba rows state e ξ lam j) (lam j)) := by
  have hxs : ((selectState rows state).map (score ξ e lam state)) ≠ [] := by simpa using hsel
  have hmpos : 0 < mean (((selectState rows state).map (score ξ e lam state)).map Real.exp) :=
    mean_exp_pos _ hxs
  constructor
  · intro j
    simp only [objective_gradient_numba, objective_gradient_spec]
    rw [shifted_mean_exp]
    congr 1
    apply List.map_congr_left
    intro r _
    have hsub : Real.exp (score ξ e lam state r - listMax ((selectState rows state).map
        (score ξ e lam state)))
        = Real.exp (score ξ e lam state r) * Real.exp (-(listMax ((selectState rows state).map
          (score ξ e lam state)))) := by
      rw [Real.exp_sub, Real.exp_neg, div_eq_mul_inv]
    rw [hsub, mul_div_mul_right _ _ (Real.exp_ne_zero _)]
  · intro j
    have hS1 : ((selectState rows state).map fun r => Real.exp (score ξ e lam state r))
        = ((selectState rows state).map (score ξ e lam state)).map Real.exp := by
      rw [List.map_map]
      rfl
    have hS1pos : 0 < ((selectState rows state).map fun r =>
        Real.exp (score ξ e lam state r)).sum := by
      rw [hS1]
      exact exp_list_sum_pos _ hxs
    have hlen : (0:ℝ) < ((selectState rows state).length : ℝ) := by
      exact_mod_cast List.length_pos.mpr hsel
    have hobj : (fun t => objective_numba rows state e ξ (Function.update lam j t))
        = fun t => Real.log (((selectState rows state).map fun r =>
            Real.exp (score ξ e (Function.update lam j t) state r)).sum
            / ((selectState rows state).length : ℝ)) := by
      funext t
      rw [objective_numba_eq_logMeanExp rows state e ξ _ hsel, logMeanExp, mean,
        List.map_map, List.length_map]
      rfl
    rw [hobj]
    have hrows : ∀ r ∈ selectState rows state,
        HasDerivAt (fun t => Real.exp (score ξ e (Function.update lam j t) state r))
          (r.f state j * Real.exp (score ξ e lam state r)) (lam j) := by
      intro r _
      have haff : (fun t => score ξ e (Function.update lam j t) state r)
          = fun t => r.f state j * (t - lam j) + score ξ e lam state r :=
        funext fun t => score_update ξ e lam j t state r
      have h1 : HasDerivAt (fun t : ℝ => r.f state j * (t - lam j) + score ξ e lam state r)
          (r.f state j) (lam j) := by
        simpa using (((hasDerivAt_id (lam j)).sub_const (lam j)).const_mul
          (r.f state j)).add_const (score ξ e lam state r)
      have h2 : HasDerivAt (fun t => score ξ e (Function.update lam j t) state r)
          (r.f state j) (lam j) := by
        rw [haff]
        exact h1
      have h3 := h2.exp
      rw [Function.update_eq_self] at h3
      have h4 := h3
      rw [mul_comm] at h4
      exact h4
    have hsum := hasDerivAt_list_sum (selectState rows state)
      (fun r t => Real.exp (score ξ e (Function.update lam j t) state r))
      (fun r => r.f state j * Real.exp (score ξ e lam state r)) (lam j) hrows
    have hdiv := hsum.div_const (((selectState rows state).length : ℝ))
    have hne : ((selectState rows state).map fun r =>
        Real.exp (score ξ e (Function.update lam j (lam j)) state r)).sum
        / ((selectState rows state).length : ℝ) ≠ 0 := by
      rw [Function.update_eq_self]
      exact ne_of_gt (div_pos hS1pos hlen)
    have hlog := hdiv.log hne
    simp only [Function.update_eq_self] at hlog
    convert hlog using 1
    simp only [objective_gradient_numba]
    rw [mean]
    have hlist : ((selectState rows state).map fun r => r.f state j *
        (Real.exp (score ξ e lam state r)
          / (mean (((selectState rows state).map (score ξ e lam state)).map Real.exp))))
        = (selectState rows state).map fun r =>
          (r.f state j * Real.exp (score ξ e lam state r)) *
            (mean (((selectState rows state).map (score ξ e lam state)).map Real.exp))⁻¹ := by
      apply List.map_congr_left
      intro r _
      rw [div_eq_mul_inv]
      ring
    rw [hlist, List.sum_map_mul_right, List.length_map]
    rw [mean, List.length_map, List.length_map, hS1]
    field_simp
    exact mul_div_mul_right _ _ (ne_of_gt hlen)

/-- Witness for C6 at a concrete input: the one-row panel, e = 1, ξ = 1,
λ = 0, coordinate j = 0. -/
theorem objective_gradient_exact_witness :
    (objective_gradient_numba [wRow] 0 (fun _ => 1) 1 (fun _ => 0) 0
      = objective_gradient_spec [wRow] 0 (fun _ => 1) 1 (fun _ => 0) 0) ∧
    HasDerivAt (fun t => objective_numba [wRow] 0 (fun _ => 1) 1
        (Function.update (fun _ => 0) 0 t))
      (objective_gradient_numba [wRow] 0 (fun _ => 1) 1 (fun _ => 0) 0) 0 :=
  ⟨(objective_gradient_exact [wRow] 0 (fun _ => 1) 1 (fun _ => 0)
      (by simp [selectState, wRow, List.filter])).1 0,
   (objective_gradient_exact [wRow] 0 (fun _ => 1) 1 (fun _ => 0)
      (by simp [selectState, wRow, List.filter])).2 0⟩

/-! ### Per-state solver (`_min_objective`) -/

/-- The optimization methods attempted by `_min_objective`, in order. -/
inductive OptMethod
  | LBFGSB
  | BFGS
  | CG
deriving DecidableEq

/-- The record returned by `scipy.optimize.minimize`: the success flag,
the minimized objective value (`model.fun`) and the minimizer (`model.x`). -/
structure OptResult (nf : ℕ) where
  success : Bool
  val : ℝ
  x : Fin nf → ℝ

/-- The all-ones starting vector `np.ones(n_f)` of every attempt. -/
def ones (nf : ℕ) : Fin nf → ℝ := fun _ => 1

/-- The method-fallback loop of `_min_objective`: attempt each method in
order from the all-ones vector, stopping at the first that reports
success; if none succeeds the last attempt's result is kept. -/
def selectModel {nf : ℕ} (opt : OptMethod → (Fin nf → ℝ) → OptResult nf) : OptResult nf :=
  let m1 := opt OptMethod.LBFGSB (ones nf)
  if m1.success then m1
  else
    let m2 := opt OptMethod.BFGS (ones nf)
    if m2.success then m2
    else opt OptMethod.CG (ones nf)

/-- Output of `_min_objective`: `v = exp(model.fun)`, the minimizing λ
block, and the printed warnings, each carrying the ξ and tolerance it
reports. -/
structure MinOut (nf : ℕ) where
  v : ℝ
  lam : Fin nf → ℝ
  warnings : List (ℝ × ℝ)

/-- `_min_objective`, with `scipy.optimize.minimize` as an oracle mapping
a method and a starting point to its result. -/
noncomputable def min_objective {nf : ℕ} (opt : OptMethod → (Fin nf → ℝ) → OptResult nf)
    (ξ tol : ℝ) : MinOut nf :=
  let model := selectModel opt
  ⟨Real.exp model.val, model.x,
    if model.success = false then [(ξ, tol)] else []⟩

/-- C7: the per-state solve tries the ordered method list from the
all-ones vector and stops at the first success; if every method fails it
keeps the last attempt's result, emits exactly one warning identifying ξ
and the tolerance, and still returns normally with
`v = exp(minimized objective value)` and the minimizing λ. -/
theorem min_objective_fallback {nf : ℕ} (opt : OptMethod → (Fin nf → ℝ) → OptResult nf)
    (ξ tol : ℝ) :
    ((opt OptMethod.LBFGSB (ones nf)).success = true →
      selectModel opt = opt OptMethod.LBFGSB (ones nf)) ∧
    ((opt OptMethod.LBFGSB (ones nf)).success = false →
      (opt OptMethod.BFGS (ones nf)).success = true →
      selectModel opt = opt OptMethod.BFGS (ones nf)) ∧
    ((opt OptMethod.LBFGSB (ones nf)).success = false →
      (opt OptMethod.BFGS (ones nf)).success = false →
      selectModel opt = opt OptMethod.CG (ones nf)) ∧
    ((min_objective opt ξ tol).v = Real.exp (selectModel opt).val) ∧
    ((min_objective opt ξ tol).lam = (selectModel opt).x) ∧
    ((selectModel opt).success = false → (min_objective opt ξ tol).warnings = [(ξ, tol)]) ∧
    ((selectModel opt).success = true → (min_objective opt ξ tol).warnings = []) := by
  refine ⟨?_, ?_, ?_, rfl, rfl, ?_, ?_⟩
  · intro h1
    simp [selectModel, h1]
  · intro h1 h2
    simp [selectModel, h1, h2]
  · intro h1 h2
    simp [selectModel, h1, h2]
  · intro h
    simp [min_objective, h]
  · intro h
    simp [min_objective, h]

/-- Witness for C7 at concrete inputs: an oracle whose attempts all fail
falls through to the CG result and emits the (ξ, tol) warning; an oracle
whose first attempt succeeds is selected immediately. -/
theorem min_objective_fallback_witness :
    (selectModel (fun _ _ => (⟨true, 0, fun _ => 0⟩ : OptResult 1)) =
      (fun (_ : OptMethod) (_ : Fin 1 → ℝ) => (⟨true, 0, fun _ => 0⟩ : OptResult 1))
        OptMethod.LBFGSB (ones 1)) ∧
    (selectModel (fun _ _ => (⟨false, 0, fun _ => 0⟩ : OptResult 1)) =
      (fun (_ : OptMethod) (_ : Fin 1 → ℝ) => (⟨false, 0, fun _ => 0⟩ : OptResult 1))
        OptMethod.CG (ones 1)) ∧
    (min_objective (fun _ _ => (⟨false, 0, fun _ => 0⟩ : OptResult 1)) 1 2).warnings
      = [((1:ℝ), (2:ℝ))] :=
  ⟨(min_objective_fallback (fun _ _ => (⟨true, 0, fun _ => 0⟩ : OptResult 1)) 1 2).1 rfl,
   (min_objective_fallback (fun _ _ => (⟨false, 0, fun _ => 0⟩ : OptResult 1)) 1 2).2.2.1 rfl rfl,
   (min_objective_fallback (fun _ _ => (⟨false, 0, fun _ => 0⟩ : OptResult 1)) 1 2).2.2.2.2.2.1 rfl⟩

/-! ### Outer fixed-point iterator (`iterate`) -/

/-- Failures of `iterate`: the raised configuration error (`self.g is
None`) and, in this fuel-bounded embedding, non-convergence of the
unbounded while loop within the supplied fuel. -/
inductive IterErr
  | gNotSet
  | noConvergence
deriving DecidableEq

/-- The per-call mutable state of `iterate`: eigenvector estimate `e`,
eigenvalue `ϵ`, stacked dual weights, sweep count, and the error of the
last sweep (`error` starts at 1 before the loop). -/
structure IterState (ns nf : ℕ) where
  e : Fin ns → ℝ
  eps : ℝ
  lam : Fin ns → Fin nf → ℝ
  count : ℕ
  error : ℝ

/-- State before the while loop: `error = 1`, `count = 0`; `e`, `v` and λ
are (re)initialized inside the loop on the first sweep. -/
def initIterState (ns nf : ℕ) : IterState ns nf :=
  ⟨fun _ => 1, 0, fun _ _ => 0, 0, 1⟩

/-- The eigenvector estimate a sweep reads: on the first sweep
(`count == 0`) it is reset to the all-ones vector. -/
def sweepE {ns nf : ℕ} (s : IterState ns nf) : Fin ns → ℝ :=
  if s.count = 0 then fun _ => 1 else s.e

/-- One sweep of the outer loop: for every state k run `_min_objective`
(so `v[k] = exp(model.fun)` and the λ block is `model.x`), then set
`ϵ = v[0]`, `e = v / v[0]`, the error to the maximal absolute
componentwise change of `e`, and increment the sweep count. -/
noncomputable def sweepStep {ns nf : ℕ} [NeZero ns]
    (opt : (Fin ns → ℝ) → Fin ns → OptMethod → (Fin nf → ℝ) → OptResult nf)
    (ξ tol : ℝ) (s : IterState ns nf) : IterState ns nf :=
  let e0 := sweepE s
  let sol : Fin ns → MinOut nf := fun k => min_objective (opt e0 k) ξ tol
  let v : Fin ns → ℝ := fun k => (sol k).v
  ⟨fun k => v k / v 0, v 0, fun k => (sol k).lam, s.count + 1,
    Finset.univ.sup' Finset.univ_nonempty fun k => |v k / v 0 - e0 k|⟩

/-- The `while error > tol` loop of `iterate`, bounded by fuel. -/
noncomputable def iterLoop {ns nf : ℕ} [NeZero ns]
    (opt : (Fin ns → ℝ) → Fin ns → OptMethod → (Fin nf → ℝ) → OptResult nf)
    (ξ tol : ℝ) : ℕ → IterState ns nf → Option (IterState ns nf)
  | 0, s => if s.error > tol then none else some s
  | fuel+1, s =>
    if s.error > tol then iterLoop opt ξ tol fuel (sweepStep opt ξ tol s) else some s

/-- `iterate`: raise the configuration error when the moment function g
has not been set, otherwise run the fixed-point loop from the initial
state. -/
noncomputable def iterate {ns nf : ℕ} [NeZero ns] (g : Option (ℕ → ℝ))
    (opt : (Fin ns → ℝ) → Fin ns → OptMethod → (Fin nf → ℝ) → OptResult nf)
    (ξ tol : ℝ) (fuel : ℕ) : Except IterErr (IterState ns nf) :=
  match g with
  | none => Except.error IterErr.gNotSet
  | some _ =>
    match iterLoop opt ξ tol fuel (initIterState ns nf) with
    | some s => Except.ok s
    | none => Except.error IterErr.noConvergence

/-- Whether a result of `iterate` is the raised configuration error. -/
def raisesConfigError {α : Type} : Except IterErr α → Bool
  | Except.error IterErr.gNotSet => true
  | _ => false

/-- C8: calling `iterate` before the moment function g is set fails
immediately with the raised configuration error; once g is set this error
is never raised, whatever else the call does. -/
theorem iterate_requires_g {ns nf : ℕ} [NeZero ns]
    (opt : (Fin ns → ℝ) → Fin ns → OptMethod → (Fin nf → ℝ) → OptResult nf)
    (ξ tol : ℝ) (fuel : ℕ) (g : ℕ → ℝ) :
    raisesConfigError (iterate none opt ξ tol fuel) = true ∧
    raisesConfigError (iterate (some g) opt ξ tol fuel) = false := by
  constructor
  · rfl
  · rw [iterate]
    cases iterLoop opt ξ tol fuel (initIterState ns nf) <;> rfl

/-- C9: after every sweep the eigenvector estimate is strictly positive
with first component 1: `e = v / v[0]`, every `v[k] = exp(minimized
objective value) > 0`, and `ϵ` is `v[0]`, the raw value before
normalization. -/
theorem sweep_normalization {ns nf : ℕ} [NeZero ns]
    (opt : (Fin ns → ℝ) → Fin ns → OptMethod → (Fin nf → ℝ) → OptResult nf)
    (ξ tol : ℝ) (s : IterState ns nf) :
    ((sweepStep opt ξ tol s).e 0 = 1) ∧
    (∀ k, 0 < (sweepStep opt ξ tol s).e k) ∧
    ((sweepStep opt ξ tol s).eps = (min_objective (opt (sweepE s) 0) ξ tol).v) ∧
    (∀ k, (min_objective (opt (sweepE s) k) ξ tol).v
        = Real.exp (selectModel (opt (sweepE s) k)).val) ∧
    (∀ k, 0 < (min_objective (opt (sweepE s) k) ξ tol).v) ∧
    (∀ k, (sweepStep opt ξ tol s).e k
        = (min_objective (opt (sweepE s) k) ξ tol).v
          / (min_objective (opt (sweepE s) 0) ξ tol).v) := by
  refine ⟨?_, ?_, rfl, fun k => rfl, fun k => Real.exp_pos _, fun k => rfl⟩
  · exact div_self (ne_of_gt (Real.exp_pos _))
  · intro k
    exact div_pos (Real.exp_pos _) (Real.exp_pos _)

/-- A concrete always-succeeding minimize oracle on a one-state,
one-factor configuration, used by the iterate witnesses. -/
noncomputable def wOpt : (Fin 1 → ℝ) → Fin 1 → OptMethod → (Fin 1 → ℝ) → OptResult 1 :=
  fun _ _ _ _ => ⟨true, 0, fun _ => 0⟩

/-- Witness for C8 at a concrete input: with the one-state oracle, the
configuration error is raised exactly when g is absent. -/
theorem iterate_requires_g_witness :
    raisesConfigError (iterate none wOpt 1 (1/2) 3) = true ∧
    raisesConfigError (iterate (some fun _ => 0) wOpt 1 (1/2) 3) = false :=
  iterate_requires_g wOpt 1 (1/2) 3 (fun _ => 0)

/-- Witness for C9 at a concrete input: one sweep from the initial state
with the one-state oracle. -/
theorem sweep_normalization_witness :
    ((sweepStep wOpt 1 (1/2) (initIterState 1 1)).e 0 = 1) ∧
    (∀ k, 0 < (sweepStep wOpt 1 (1/2) (initIterState 1 1)).e k) ∧
    ((sweepStep wOpt 1 (1/2) (initIterState 1 1)).eps
      = (min_objective (wOpt (sweepE (initIterState 1 1)) 0) 1 (1/2)).v) ∧
    (∀ k, (min_objective (wOpt (sweepE (initIterState 1 1)) k) 1 (1/2)).v
        = Real.exp (selectModel (wOpt (sweepE (initIterState 1 1)) k)).val) ∧
    (∀ k, 0 < (min_objective (wOpt (sweepE (initIterState 1 1)) k) 1 (1/2)).v) ∧
    (∀ k, (sweepStep wOpt 1 (1/2) (initIterState 1 1)).e k
        = (min_objective (wOpt (sweepE (initIterState 1 1)) k) 1 (1/2)).v
          / (min_objective (wOpt (sweepE (initIterState 1 1)) 0) 1 (1/2)).v) :=
  sweep_normalization wOpt 1 (1/2) (initIterState 1 1)

/-! ### Post-convergence density and transition matrices -/

/-- The distorted density per observation (lower-bound direction):
`N = (1/ϵ) · exp(−g/ξ + f@λ) · (pd_indicator·e) / (pd_lag_indicator·e)`,
where `f@λ` is the full stacked-matrix dot product. -/
noncomputable def density {ns nf : ℕ} (ξ eps : ℝ) (e : Fin ns → ℝ)
    (lamFull : Fin ns → Fin nf → ℝ) (r : Row ns nf) : ℝ :=
  1 / eps * Real.exp (-r.g / ξ + ∑ s, dotR (r.f s) (lamFull s))
    * dotB r.next e / dotB r.cur e

/-- The empirical transition matrix:
`P[i,j] = mean over rows in state i of the next-state-j indicator`. -/
noncomputable def Pmat {ns nf : ℕ} (rows : List (Row ns nf)) (i j : Fin ns) : ℝ :=
  mean ((selectState rows i).map fun r => bval (r.next j))

/-- The distorted transition matrix: `P_tilde[i,j]` additionally weights
by the distorted density. -/
noncomputable def Ptilde {ns nf : ℕ} (rows : List (Row ns nf)) (ξ eps : ℝ)
    (e : Fin ns → ℝ) (lamFull : Fin ns → Fin nf → ℝ) (i j : Fin ns) : ℝ :=
  mean ((selectState rows i).map fun r => density ξ eps e lamFull r * bval (r.next j))

lemma list_sum_fin_sum {α : Type} {m : ℕ} (l : List α) (F : α → Fin m → ℝ) :
    ∑ j, (l.map fun r => F r j).sum = (l.map fun r => ∑ j, F r j).sum := by
  induction l with
  | nil => simp
  | cons a l ih => simp [Finset.sum_add_distrib, ih]

lemma fin_sum_mean {α : Type} {m : ℕ} (l : List α) (F : α → Fin m → ℝ) :
    ∑ j, mean (l.map fun r => F r j) = mean (l.map fun r => ∑ j, F r j) := by
  simp only [mean, List.length_map]
  rw [← Finset.sum_div, list_sum_fin_sum]

lemma existsUnique_bool_iff {m : ℕ} {ind : Fin m → Bool} (h : ∃! k, ind k = true) :
    ∃ k0, ∀ k, ind k = true ↔ k = k0 := by
  obtain ⟨k0, hk0, huniq⟩ := h
  exact ⟨k0, fun k => ⟨fun hk => huniq k hk, fun hk => hk ▸ hk0⟩⟩

lemma bval_sum_eq_one {m : ℕ} (ind : Fin m → Bool) (j0 : Fin m)
    (h : ∀ k, ind k = true ↔ k = j0) : ∑ k, bval (ind k) = 1 := by
  have hb : ∀ k, bval (ind k) = if k = j0 then 1 else 0 := by
    intro k
    by_cases hk : k = j0
    · subst hk
      simp [bval, (h k).mpr rfl]
    · have hf : ind k = false := by
        cases hik : ind k
        · rfl
        · exact absurd ((h k).mp hik) hk
      simp [bval, hf, hk]
  rw [Finset.sum_congr rfl fun k _ => hb k, Finset.sum_ite_eq' Finset.univ j0]
  simp

lemma dotB_unique {m : ℕ} (ind : Fin m → Bool) (e : Fin m → ℝ) (j0 : Fin m)
    (h : ∀ k, ind k = true ↔ k = j0) : dotB ind e = e j0 := by
  have hb : ∀ k, bval (ind k) * e k = if k = j0 then e k else 0 := by
    intro k
    by_cases hk : k = j0
    · subst hk
      simp [bval, (h k).mpr rfl]
    · have hf : ind k = false := by
        cases hik : ind k
        · rfl
        · exact absurd ((h k).mp hik) hk
      simp [bval, hf, hk]
  rw [dotB, Finset.sum_congr rfl fun k _ => hb k, Finset.sum_ite_eq' Finset.univ j0]
  simp

lemma stacked_dot_of_masked {ns nf : ℕ} (r : Row ns nf) (lamFull : Fin ns → Fin nf → ℝ)
    (i : Fin ns) (hcur : ∀ k, r.cur k = true ↔ k = i)
    (hmask : ∀ k, r.cur k = false → ∀ jj, r.f k jj = 0) :
    (∑ s, dotR (r.f s) (lamFull s)) = dotR (r.f i) (lamFull i) := by
  rw [Finset.sum_eq_single i]
  · intro b _ hb
    have hb' : r.cur b = false := by
      cases hcb : r.cur b
      · rfl
      · exact absurd ((hcur b).mp hcb) hb
    rw [dotR]
    apply Finset.sum_eq_zero
    intro jj _
    rw [hmask b hb' jj, zero_mul]
  · intro h
    exact absurd (Finset.mem_univ i) h

lemma list_sum_map_one {α : Type} (l : List α) : (l.map fun _ => (1:ℝ)).sum = l.length := by
  induction l with
  | nil => simp
  | cons a l ih =>
    simp [ih]
    ring

lemma mean_const_one {α : Type} (l : List α) (hl : l ≠ []) :
    mean (l.map fun _ => (1:ℝ)) = 1 := by
  rw [mean, List.length_map, list_sum_map_one]
  have : (0:ℝ) < l.length := by exact_mod_cast List.length_pos.mpr hl
  exact div_self (ne_of_gt this)

lemma mean_map_mul_right {α : Type} (l : List α) (g : α → ℝ) (c : ℝ) :
    mean (l.map fun r => g r * c) = mean (l.map g) * c := by
  rw [mean, mean, List.length_map, List.length_map, List.sum_map_mul_right,
    mul_div_right_comm]

/-- Per-row identity: on a row of state i with a unique next state, the
density is `exp(score) / (ϵ · e i)`. -/
lemma density_eq_exp_score {ns nf : ℕ} (ξ eps : ℝ) (e : Fin ns → ℝ)
    (lamFull : Fin ns → Fin nf → ℝ) (i : Fin ns) (r : Row ns nf)
    (hcur : ∀ k, r.cur k = true ↔ k = i)
    (hmask : ∀ k, r.cur k = false → ∀ jj, r.f k jj = 0)
    (hnext : ∃ j0, ∀ k, r.next k = true ↔ k = j0)
    (hepos : ∀ k, 0 < e k) :
    density ξ eps e lamFull r = Real.exp (score ξ e (lamFull i) i r) / (eps * e i) := by
  obtain ⟨j0, hj0⟩ := hnext
  rw [density, score, dotB_unique r.cur e i hcur, dotB_unique r.next e j0 hj0,
    stacked_dot_of_masked r lamFull i hcur hmask,
    Real.exp_add (-r.g / ξ + dotR (r.f i) (lamFull i)) (Real.log (e j0)),
    Real.exp_log (hepos j0)]
  field_simp

/-- C3: for a converged iterate call on valid data (each row's current-
and next-state indicator rows have exactly one true entry, every state is
populated, the stacked factor blocks vanish outside their own state, and
the converged fixed point satisfies `v k = exp(objective k)`, `ϵ = v 0`,
`e = v / v 0`), every row of the empirical transition matrix `P` and of
the distorted transition matrix `P_tilde` sums to 1. -/
theorem transition_matrices_row_stochastic {ns nf : ℕ} [NeZero ns]
    (rows : List (Row ns nf)) (ξ eps : ℝ) (e v : Fin ns → ℝ)
    (lamFull : Fin ns → Fin nf → ℝ)
    (hne : ∀ k, selectState rows k ≠ [])
    (hcur : ∀ r ∈ rows, ∃! k, r.cur k = true)
    (hnext : ∀ r ∈ rows, ∃! k, r.next k = true)
    (hmask : ∀ r ∈ rows, ∀ k, r.cur k = false → ∀ jj, r.f k jj = 0)
    (hv : ∀ k, v k = Real.exp (objective_numba rows k e ξ (lamFull k)))
    (heps : eps = v 0)
    (he : ∀ k, e k = v k / v 0) :
    ∀ i, (∑ j, Pmat rows i j = 1) ∧ (∑ j, Ptilde rows ξ eps e lamFull i j = 1) := by
  intro i
  have hvpos : ∀ k, 0 < v k := by
    intro k
    rw [hv k]
    exact Real.exp_pos _
  have hepos : ∀ k, 0 < e k := by
    intro k
    rw [he k]
    exact div_pos (hvpos k) (hvpos 0)
  have hmem : ∀ r ∈ selectState rows i, r ∈ rows := by
    intro r hr
    exact (List.mem_filter.mp hr).1
  have hcuri : ∀ r ∈ selectState rows i, ∀ k, r.cur k = true ↔ k = i := by
    intro r hr k
    obtain ⟨k0, hk0⟩ := existsUnique_bool_iff (hcur r (hmem r hr))
    have hri : r.cur i = true := (List.mem_filter.mp hr).2
    have hik : i = k0 := (hk0 i).mp hri
    rw [← hik] at hk0
    exact hk0 k
  constructor
  · simp only [Pmat]
    rw [fin_sum_mean]
    have hmapeq : ((selectState rows i).map fun r => ∑ j, bval (r.next j))
        = (selectState rows i).map fun _ => (1:ℝ) := by
      apply List.map_congr_left
      intro r hr
      obtain ⟨j0, hj0⟩ := existsUnique_bool_iff (hnext r (hmem r hr))
      exact bval_sum_eq_one r.next j0 hj0
    rw [hmapeq, mean_const_one _ (hne i)]
  · simp only [Ptilde]
    rw [fin_sum_mean]
    have hmapeq : ((selectState rows i).map fun r =>
        ∑ j, density ξ eps e lamFull r * bval (r.next j))
        = (selectState rows i).map fun r =>
          Real.exp (score ξ e (lamFull i) i r) * (eps * e i)⁻¹ := by
      apply List.map_congr_left
      intro r hr
      rw [← Finset.mul_sum]
      obtain ⟨j0, hj0⟩ := existsUnique_bool_iff (hnext r (hmem r hr))
      rw [bval_sum_eq_one r.next j0 hj0, mul_one,
        density_eq_exp_score ξ eps e lamFull i r (hcuri r hr)
          (fun k hk jj => hmask r (hmem r hr) k hk jj) ⟨j0, hj0⟩ hepos,
        div_eq_mul_inv]
    rw [hmapeq, mean_map_mul_right]
    have hexp : mean ((selectState rows i).map fun r =>
        Real.exp (score ξ e (lamFull i) i r)) = v i := by
      have h1 : ((selectState rows i).map fun r => Real.exp (score ξ e (lamFull i) i r))
          = ((selectState rows i).map (score ξ e (lamFull i) i)).map Real.exp := by
        rw [List.map_map]
        rfl
      rw [h1, hv i, objective_numba_eq_logMeanExp rows i e ξ (lamFull i) (hne i), logMeanExp,
        Real.exp_log (mean_exp_pos _ (by simpa using hne i))]
    rw [hexp]
    have hkey : eps * e i = v i := by
      rw [heps, he i]
      field_simp
      exact mul_div_cancel_left₀ _ (hvpos 0).ne'
    rw [hkey]
    exact mul_inv_cancel₀ (hvpos i).ne'

/-- First row of the concrete two-state panel for the C3 witness: state 0
now, state 0 next, zero moment and factors. -/
noncomputable def wObsA : Row 2 1 :=
  ⟨0, fun _ _ => 0, fun k => decide (k = 0), fun k => decide (k = 0)⟩

/-- Second row of the concrete two-state panel for the C3 witness. -/
noncomputable def wObsB : Row 2 1 :=
  ⟨0, fun _ _ => 0, fun k => decide (k = 1), fun k => decide (k = 1)⟩

/-- Witness for C3 at a concrete input: the two-row two-state panel at the
exact fixed point e = (1,1), v = (1,1), ϵ = 1, λ = 0, ξ = 1. -/
theorem transition_matrices_row_stochastic_witness :
    (∑ j, Pmat [wObsA, wObsB] 0 j = 1) ∧
    (∑ j, Ptilde [wObsA, wObsB] 1 1 (fun _ => 1) (fun _ _ => 0) 0 j = 1) :=
  (transition_matrices_row_stochastic [wObsA, wObsB] 1 1 (fun _ => 1) (fun _ => 1)
    (fun _ _ => 0)
    (by intro k
        fin_cases k <;> simp [selectState, wObsA, wObsB])
    (by intro r hr
        simp only [List.mem_cons, List.not_mem_nil, or_false] at hr
        rcases hr with rfl | rfl
        · refine ⟨0, by simp [wObsA], ?_⟩
          intro y hy
          fin_cases y
          · rfl
          · simp [wObsA] at hy
        · refine ⟨1, by simp [wObsB], ?_⟩
          intro y hy
          fin_cases y
          · simp [wObsB] at hy
          · rfl)
    (by intro r hr
        simp only [List.mem_cons, List.not_mem_nil, or_false] at hr
        rcases hr with rfl | rfl
        · refine ⟨0, by simp [wObsA], ?_⟩
          intro y hy
          fin_cases y
          · rfl
          · simp [wObsA] at hy
        · refine ⟨1, by simp [wObsB], ?_⟩
          intro y hy
          fin_cases y
          · simp [wObsB] at hy
          · rfl)
    (by intro r hr k _ jj
        simp only [List.mem_cons, List.not_mem_nil, or_false] at hr
        rcases hr with rfl | rfl <;> rfl)
    (by intro k
        fin_cases k <;>
          simp [objective_numba, selectState, wObsA, wObsB, score, dotR, dotB, bval, mean,
            listMax, Fin.sum_univ_two, Fin.sum_univ_one, Real.exp_zero, Real.log_one])
    rfl
    (by intro k
        norm_num)) 0

end Beliefs
